import Mathlib

/-!
Verification of the block-command utility module
(`packages/umi-build-dev/src/plugins/commands/block/util.js`).

The JavaScript source is shallowly embedded below:
pure functions become Lean functions, JavaScript plain objects used as
string-keyed maps become insertion-ordered association lists
(`List (String × α)` with JS assignment/spread semantics), the
side-effecting `gitUpdate` becomes a pure function from an environment
(describing the outcome of each spawned git command and the state of the
filesystem marker file) to the emitted spinner/process event trace plus
an `Except` outcome.  Fallible code (`genBlockName` on a string with no
regex match) returns `Option`.
-/

/-! ### ASCII character classes, as used by the regex `/[A-Z]?[a-z]+|[0-9]+/g` -/

def isUpperAscii (c : Char) : Bool := 65 ≤ c.toNat && c.toNat ≤ 90

def isLowerAscii (c : Char) : Bool := 97 ≤ c.toNat && c.toNat ≤ 122

def isDigitAscii (c : Char) : Bool := 48 ≤ c.toNat && c.toNat ≤ 57

/-- JavaScript `String.prototype.toLowerCase`, restricted to the ASCII
letters/digits that can occur inside a regex token of `genBlockName`. -/
def toLowerAscii (c : Char) : Char :=
  if isUpperAscii c then Char.ofNat (c.toNat + 32) else c

/-- JavaScript `key.split('/')` for the one-character separator `'/'`:
split at every separator occurrence, keeping empty pieces (leading, trailing,
and between adjacent separators). -/
def jsSplitSlashAux : List Char → List Char → List String
  | [], acc => [String.mk acc.reverse]
  | c :: cs, acc =>
    if c = '/' then String.mk acc.reverse :: jsSplitSlashAux cs []
    else jsSplitSlashAux cs (c :: acc)

def jsSplitSlash (s : String) : List String := jsSplitSlashAux s.data []

/-- JavaScript `Array.prototype.join(sep)`: empty array gives `''`, otherwise
the elements interleaved with the separator. -/
def arrayJoin (sep : String) : List String → String
  | [] => ""
  | [x] => x
  | x :: xs => x ++ sep ++ arrayJoin sep xs

/-- First regex alternative `[A-Z]?[a-z]+` tried at the current position:
greedy optional capital, then a maximal nonempty lowercase run.  Returns the
matched token and the remaining input, or `none` when the alternative does not
match at this position. -/
def matchAlt1 : List Char → Option (List Char × List Char)
  | [] => none
  | c :: cs =>
    if isUpperAscii c then
      match cs.takeWhile isLowerAscii with
      | [] => none
      | r => some (c :: r, cs.dropWhile isLowerAscii)
    else
      match (c :: cs).takeWhile isLowerAscii with
      | [] => none
      | r => some (r, (c :: cs).dropWhile isLowerAscii)

/-- Second regex alternative `[0-9]+` tried at the current position. -/
def matchAlt2 (l : List Char) : Option (List Char × List Char) :=
  match l.takeWhile isDigitAscii with
  | [] => none
  | r => some (r, l.dropWhile isDigitAscii)

/-- One scan step per unit of fuel: at the current position try the first
alternative then the second; on a match emit the token and continue after it,
on failure advance one character.  Each step consumes at least one character,
so fuel `l.length` always suffices (`regexTokensAux_eq_specTokens`). -/
def regexTokensAux : Nat → List Char → List (List Char)
  | 0, _ => []
  | _ + 1, [] => []
  | n + 1, c :: cs =>
    match matchAlt1 (c :: cs) with
    | some (tok, rest) => tok :: regexTokensAux n rest
    | none =>
      match matchAlt2 (c :: cs) with
      | some (tok, rest) => tok :: regexTokensAux n rest
      | none => regexTokensAux n cs

/-- The token list produced by `name.match(/[A-Z]?[a-z]+|[0-9]+/g)`: scan left
to right, at each position try the first alternative then the second, on
failure advance one character. -/
def regexTokens (l : List Char) : List (List Char) :=
  regexTokensAux l.length l

/-- `genBlockName` from the source: `name.match(...).map(p => p.toLowerCase()).join('/')`.
When the match yields no token, `match` returns `null` and the `.map` call
throws a `TypeError`; this is modelled by `none`. -/
def genBlockName (name : String) : Option String :=
  match regexTokens name.data with
  | [] => none
  | t :: ts =>
    some (arrayJoin "/" ((t :: ts).map (fun tok => String.mk (tok.map toLowerAscii))))

/-! ### JavaScript plain objects used as string-keyed maps

A JS object literal keyed by (non-integer-like) strings enumerates its keys in
insertion order; assignment to an existing key keeps its position and replaces
the value, assignment to a fresh key appends it.  Object spread
`{...a, ...b}` inserts the entries of `a` then those of `b` with the same
rule.  This is modelled by an association list. -/

def jsGet {α : Type} : List (String × α) → String → Option α
  | [], _ => none
  | (k', v) :: rest, k => if k' = k then some v else jsGet rest k

def jsSet {α : Type} : List (String × α) → String → α → List (String × α)
  | [], k, v => [(k, v)]
  | (k', v') :: rest, k, v =>
    if k' = k then (k, v) :: rest else (k', v') :: jsSet rest k v

def jsMerge {α : Type} (m1 m2 : List (String × α)) : List (String × α) :=
  m2.foldl (fun acc kv => jsSet acc kv.1 kv.2) m1

def keysOf {α : Type} (m : List (String × α)) : List String := m.map Prod.fst

/-! ### RouteTree data model -/

/-- The node shape produced by `genRouterToTreeData`:
`{ title, value, key, children }`. -/
inductive RouteNode : Type where
  | mk (title : String) (value : String) (key : String) (children : List RouteNode)

def RouteNode.title : RouteNode → String
  | .mk t _ _ _ => t

def RouteNode.value : RouteNode → String
  | .mk _ v _ _ => v

def RouteNode.key : RouteNode → String
  | .mk _ _ k _ => k

def RouteNode.children : RouteNode → List RouteNode
  | .mk _ _ _ cs => cs

/-- A source route object: optionally a `path` field and optionally a nested
`routes` array.  A missing field is `none`; JS truthiness makes both a missing
`path` and an empty-string `path` falsy. -/
inductive Route : Type where
  | mk (path : Option String) (routes : Option (List Route))

/-- `genRouterToTreeData` from the source:
`routes.map(item => item.path ? {title,value,key,children} : undefined).filter(item => item)`.
An item whose `path` is absent or falsy (empty string) yields `undefined` and
is removed by the filter; `children` recurses into `item.routes || []`. -/
def genRouterToTreeData : List Route → List RouteNode
  | [] => []
  | Route.mk none _ :: rest => genRouterToTreeData rest
  | Route.mk (some p) none :: rest =>
    if p = "" then genRouterToTreeData rest
    else RouteNode.mk p p p (genRouterToTreeData []) :: genRouterToTreeData rest
  | Route.mk (some p) (some rs) :: rest =>
    if p = "" then genRouterToTreeData rest
    else RouteNode.mk p p p (genRouterToTreeData rs) :: genRouterToTreeData rest

/-- The per-item mapping step of `genRouterToTreeData` in isolation:
`item.path ? { ... } : undefined`. -/
def genRouteNode : Route → Option RouteNode
  | Route.mk none _ => none
  | Route.mk (some p) rs =>
    if p = "" then none
    else some (RouteNode.mk p p p (genRouterToTreeData (rs.getD [])))

/-- The body of `reduceData`'s `reduce` callback, with `pre` the accumulator:
read `pre[current.key]`, flatten the children, write the node under its own
key only when absent, then return `{...pre, ...childrenKeys}`. -/
def reduceAux : List (String × RouteNode) → List RouteNode → List (String × RouteNode)
  | pre, [] => pre
  | pre, RouteNode.mk t v k cs :: rest =>
    let childrenKeys := reduceAux [] cs
    let pre' := if (jsGet pre k).isSome then pre else jsSet pre k (RouteNode.mk t v k cs)
    reduceAux (jsMerge pre' childrenKeys) rest
termination_by _ l => sizeOf l
decreasing_by
  all_goals simp
  all_goals omega

/-- `reduceData` from the source: flatten a RouteNode forest into a JS object
keyed by each node's `key`, starting from `{}`. -/
def reduceData (treeData : List RouteNode) : List (String × RouteNode) :=
  reduceAux [] treeData

/-- `key.split('/').filter(routerKey => routerKey)`: the nonempty path
segments of a key. -/
def parseSegs (key : String) : List String :=
  (jsSplitSlash key).filter (fun s => s ≠ "")

/-- The ancestor keys synthesized for one key by `depthRouterConfig`'s
`forEach((_, index, array) => ...)`: for each index `0 ≤ i < array.length`,
`routerKey = array.slice(0, i).join('/')`, and when `routerKey` is truthy the
key `'/' + routerKey` is written.  The resulting write targets, in order. -/
def prefixKeys (key : String) : List String :=
  (List.range (parseSegs key).length).filterMap (fun i =>
    let rk := arrayJoin "/" ((parseSegs key).take i)
    if rk = "" then none else some ("/" ++ rk))

/-- Processing one snapshot key inside `depthRouterConfig`'s `map`: each
ancestor prefix key receives `routerConfig[key]` unconditionally
(`routerConfig['/' + routerKey] = routerConfig[key]`).  The `none` branch is
unreachable from `depthRouterConfig` because every snapshot key is an existing
key of the map and no write removes a key. -/
def processKey (rc : List (String × RouteNode)) (key : String) : List (String × RouteNode) :=
  (prefixKeys key).foldl (fun acc p =>
    match jsGet acc key with
    | some v => jsSet acc p v
    | none => acc) rc

/-- The whole `Object.keys(routerConfig).map(...)` pass of `depthRouterConfig`:
the key list is snapshotted once, then each key mutates the shared map via
`processKey` and contributes the value `routerConfig[key]` read after its own
prefix writes.  Returns the final map and the mapped value list. -/
def depthRouterConfigFull (routes : List Route) :
    List (String × RouteNode) × List (Option RouteNode) :=
  let rc0 := reduceData (genRouterToTreeData routes)
  (keysOf rc0).foldl (fun acc key =>
    let rc' := processKey acc.1 key
    (rc', acc.2 ++ [jsGet rc' key])) (rc0, [])

/-- `depthRouterConfig` from the source: the mapped value list filtered by
`item => item && item.children && item.children.length`. -/
def depthRouterConfig (routes : List Route) : List RouteNode :=
  ((depthRouterConfigFull routes).2.filterMap id).filter (fun n => !n.children.isEmpty)

/-- `routeExists` from the source: truthiness of `routerConfig[path]` on the
flattened (non-prefix-expanded) map. -/
def routeExists (path : String) (routes : List Route) : Bool :=
  match jsGet (reduceData (genRouterToTreeData routes)) path with
  | some _ => true
  | none => false

/-! ### Block descriptors and `printBlocks` -/

/-- A block descriptor, following the data model: a `"block"`-typed leaf with
a `path` and an optional `previewUrl`, or a `"dir"`-typed node with a `path`
and a nested `blocks` sequence. -/
inductive BlockDesc : Type where
  | block (path : String) (previewUrl : Option String)
  | dir (path : String) (blocks : List BlockDesc)

/-- A record pushed onto `blockArray`: `{ name, value, key }`. -/
structure BlockItem where
  name : String
  value : String
  key : String
deriving DecidableEq

/-- Node's `path.join(a, b)`, restricted to the inputs `printBlocks` produces:
`a` is `''` or a previous `path` value, and for plain segment paths (nonempty,
no `'/'`, not `'.'` or `'..'`) `path.join` is plain concatenation with a
separator, with `join('', b) = b`. -/
def pathJoin (a b : String) : String :=
  if a = "" then b else a ++ "/" ++ b

/-- Model of `chalk.cyan`: wraps the text in ANSI color escapes. -/
def chalkCyan (s : String) : String := "\x1b[36m" ++ s ++ "\x1b[39m"

/-- Model of the `terminal-link` package: wraps text and url in an ANSI
hyperlink escape sequence. -/
def termLink (text url : String) : String :=
  "\x1b]8;;" ++ url ++ "\x07" ++ text ++ "\x1b]8;;\x07"

/-- The inner `loopBlocks(blocks, parentPath)` of `printBlocks`: a `block`
node pushes one record whose `value`/`key` is `join(parentPath, block.path)`;
a `dir` node recurses into its `blocks` with accumulated path `block.path`
(the source passes `block.path`, not `join(parentPath, block.path)`). -/
def loopBlocks (hasLink : Bool) : List BlockDesc → String → List BlockItem
  | [], _parentPath => []
  | BlockDesc.block path previewUrl :: rest, parentPath =>
    let blockName := pathJoin parentPath path
    let base := "📦  " ++ chalkCyan blockName ++ "  "
    let nm :=
      if hasLink then
        base ++ termLink "预览"
          ("https://preview.pro.ant.design/" ++
            (match previewUrl with | some u => u | none => "undefined"))
      else base
    { name := nm, value := blockName, key := blockName } ::
      loopBlocks hasLink rest parentPath
  | BlockDesc.dir path blocks :: rest, parentPath =>
    loopBlocks hasLink blocks path ++ loopBlocks hasLink rest parentPath
termination_by l _ => sizeOf l
decreasing_by
  all_goals simp
  all_goals omega

/-- `printBlocks(blocks, hasLink)` from the source: run `loopBlocks` with the
initial accumulated path `''`. -/
def printBlocks (blocks : List BlockDesc) (hasLink : Bool) : List BlockItem :=
  loopBlocks hasLink blocks ""

/-- The number of `"block"`-typed descriptors in a tree. -/
def countBlocks : List BlockDesc → Nat
  | [] => 0
  | BlockDesc.block _ _ :: rest => 1 + countBlocks rest
  | BlockDesc.dir _ bs :: rest => countBlocks bs + countBlocks rest
termination_by l => sizeOf l
decreasing_by
  all_goals simp
  all_goals omega

/-- Modelled from the spec sentence of the claim, as amended: the `value` of
each emitted record is the path of its nearest enclosing `dir` joined with the
block's own path (the accumulated path is reset to each directory's own path
segment, not extended). -/
def nearestDirValues (parentPath : String) : List BlockDesc → List String
  | [] => []
  | BlockDesc.block path _ :: rest =>
    pathJoin parentPath path :: nearestDirValues parentPath rest
  | BlockDesc.dir path bs :: rest =>
    nearestDirValues path bs ++ nearestDirValues parentPath rest
termination_by l => sizeOf l
decreasing_by
  all_goals simp
  all_goals omega

/-- Modelled from the spec sentence of the claim, as written: the `value` of
each emitted record is the join of the path segments of all its ancestor
`dir` descriptors with the block's own path. -/
def allAncestorValues (parentPath : String) : List BlockDesc → List String
  | [] => []
  | BlockDesc.block path _ :: rest =>
    pathJoin parentPath path :: allAncestorValues parentPath rest
  | BlockDesc.dir path bs :: rest =>
    allAncestorValues (pathJoin parentPath path) bs ++ allAncestorValues parentPath rest
termination_by l => sizeOf l
decreasing_by
  all_goals simp
  all_goals omega

/-- A plain path segment: nonempty, no `'/'`, not `'.'` or `'..'`.  On such
segments the `pathJoin` model agrees with Node's `path.join`. -/
def plainSeg (s : String) : Bool :=
  s != "" && !(s.data.contains '/') && s != "." && s != ".."

/-- Every `path` in a descriptor tree is a plain segment. -/
def plainPaths : List BlockDesc → Bool
  | [] => true
  | BlockDesc.block p _ :: rest => plainSeg p && plainPaths rest
  | BlockDesc.dir p bs :: rest => plainSeg p && plainPaths bs && plainPaths rest
termination_by l => sizeOf l
decreasing_by
  all_goals simp
  all_goals omega

/-! ### `gitUpdate`: sequential git steps with a progress spinner

The side effects are reified: an environment fixes the exit outcome of each
git invocation (`execa` resolves or rejects with an error message) and
whether the `.gitmodules` marker file exists; running `gitUpdate` yields the
ordered trace of spinner calls and spawned commands, plus the outcome. -/

inductive GitCmd : Type where
  | fetch
  | checkout (branch : String)
  | pull
  | submoduleInit
  | submoduleUpdate
deriving DecidableEq

inductive SpinEvent : Type where
  | start (msg : String)
  | succeed
  | fail
  | run (cmd : GitCmd)
deriving DecidableEq

structure GitCtx where
  templateTmpDirPath : String
  branch : String

structure GitEnv where
  exec : GitCmd → Except String Unit
  gitmodulesExists : String → Bool

/-- `isSubmodule` from the source: `existsSync(join(templateTmpDirPath, '.gitmodules'))`. -/
def isSubmodule (env : GitEnv) (templateTmpDirPath : String) : Bool :=
  env.gitmodulesExists templateTmpDirPath

/-- `throw new Error(e)`: a generic error object whose message is built from
the original error. -/
def wrapError (e : String) : String := "Error: " ++ e

/-- `gitUpdate(ctx, spinner)` from the source, step by step: fetch, checkout
of `ctx.branch`, pull, then (only when the marker file exists) submodule init
and recursive submodule update; each failure marks the spinner failed and
throws the wrapped error, aborting the rest. -/
def gitUpdate (env : GitEnv) (ctx : GitCtx) : List SpinEvent × Except String Unit :=
  let t0 := [SpinEvent.start "🚒  Git fetch", SpinEvent.run GitCmd.fetch]
  match env.exec GitCmd.fetch with
  | Except.error e => (t0 ++ [SpinEvent.fail], Except.error (wrapError e))
  | Except.ok _ =>
    let t1 := t0 ++ [SpinEvent.succeed,
      SpinEvent.start ("🚛  Git checkout " ++ ctx.branch),
      SpinEvent.run (GitCmd.checkout ctx.branch)]
    match env.exec (GitCmd.checkout ctx.branch) with
    | Except.error e => (t1 ++ [SpinEvent.fail], Except.error (wrapError e))
    | Except.ok _ =>
      let t2 := t1 ++ [SpinEvent.succeed, SpinEvent.start "🚀  Git pull",
        SpinEvent.run GitCmd.pull]
      match env.exec GitCmd.pull with
      | Except.error e => (t2 ++ [SpinEvent.fail], Except.error (wrapError e))
      | Except.ok _ =>
        if isSubmodule env ctx.templateTmpDirPath then
          let t3 := t2 ++ [SpinEvent.succeed, SpinEvent.run GitCmd.submoduleInit]
          match env.exec GitCmd.submoduleInit with
          | Except.error e => (t3 ++ [SpinEvent.fail], Except.error (wrapError e))
          | Except.ok _ =>
            let t4 := t3 ++ [SpinEvent.start "👀  update submodule",
              SpinEvent.run GitCmd.submoduleUpdate]
            match env.exec GitCmd.submoduleUpdate with
            | Except.error e => (t4 ++ [SpinEvent.fail], Except.error (wrapError e))
            | Except.ok _ => (t4 ++ [SpinEvent.succeed], Except.ok ())
        else
          (t2 ++ [SpinEvent.succeed], Except.ok ())

/-- The commands actually spawned, in order, extracted from a trace. -/
def cmdsOf (tr : List SpinEvent) : List GitCmd :=
  tr.filterMap (fun e => match e with | SpinEvent.run c => some c | _ => none)

/-- The full command sequence `gitUpdate` runs when every step succeeds. -/
def gitSeq (env : GitEnv) (ctx : GitCtx) : List GitCmd :=
  [GitCmd.fetch, GitCmd.checkout ctx.branch, GitCmd.pull] ++
    (if isSubmodule env ctx.templateTmpDirPath then
      [GitCmd.submoduleInit, GitCmd.submoduleUpdate]
    else [])

/-! ### Spec-side tokenizer for `genBlockName`

The claim describes the tokenization of `/[A-Z]?[a-z]+|[0-9]+/g` directly by
character classes; this second definition follows that wording so it can be
compared with `regexTokens`, which follows the regex engine. -/

def headIsLower : List Char → Bool
  | [] => false
  | d :: _ => isLowerAscii d

/-- Tokenizer written from the claim's words: a capital letter immediately
followed by one or more lowercase letters is one token (the maximal lowercase
run), a lone capital with no following lowercase is silently dropped, a
maximal run of digits is one token, a plain lowercase run is one token, any
other character is skipped.  Fuel decreases by one per step, so fuel
`l.length` always suffices. -/
def specTokensAux : Nat → List Char → List (List Char)
  | 0, _ => []
  | _ + 1, [] => []
  | n + 1, c :: cs =>
    if isUpperAscii c && headIsLower cs then
      (c :: cs.takeWhile isLowerAscii) :: specTokensAux n (cs.dropWhile isLowerAscii)
    else if isLowerAscii c then
      (c :: cs.takeWhile isLowerAscii) :: specTokensAux n (cs.dropWhile isLowerAscii)
    else if isDigitAscii c then
      (c :: cs.takeWhile isDigitAscii) :: specTokensAux n (cs.dropWhile isDigitAscii)
    else specTokensAux n cs

def specTokens (l : List Char) : List (List Char) :=
  specTokensAux l.length l

/-! ### Concrete environments used to exercise `gitUpdate` -/

/-- An environment in which `git checkout` exits non-zero with message
`boom` and every other command succeeds; no `.gitmodules` marker. -/
def envCheckoutFails : GitEnv :=
  { exec := fun c =>
      match c with
      | GitCmd.checkout _ => Except.error "boom"
      | _ => Except.ok ()
    gitmodulesExists := fun _ => false }

/-- An environment in which every git command succeeds; no `.gitmodules`
marker. -/
def envAllOk : GitEnv :=
  { exec := fun _ => Except.ok ()
    gitmodulesExists := fun _ => false }

def ctxFixture : GitCtx :=
  { templateTmpDirPath := "/tmp/blocks", branch := "master" }

/-! ## Theorems -/
theorem length_dropWhile_le (p : Char → Bool) (l : List Char) :
    (l.dropWhile p).length ≤ l.length := by
  induction l with
  | nil => simp [List.dropWhile]
  | cons c cs ih =>
    simp only [List.dropWhile]
    cases p c <;> simp <;> omega

theorem matchAlt1_some_length {l t r : List Char} (h : matchAlt1 l = some (t, r)) :
    r.length < l.length := by
  cases l with
  | nil => simp [matchAlt1] at h
  | cons c cs =>
    simp only [matchAlt1] at h
    cases hu : isUpperAscii c with
    | true =>
      cases htw : cs.takeWhile isLowerAscii with
      | nil => simp [hu, htw] at h
      | cons w ws =>
        simp only [hu, htw, if_true] at h
        rw [Option.some.injEq, Prod.mk.injEq] at h
        obtain ⟨h1', h2'⟩ := h
        subst h2'
        have := length_dropWhile_le isLowerAscii cs
        simp only [List.length_cons]
        omega
    | false =>
      cases htw : (c :: cs).takeWhile isLowerAscii with
      | nil => simp [hu, htw] at h
      | cons w ws =>
        simp only [hu, htw, Bool.false_eq_true, if_false] at h
        rw [Option.some.injEq, Prod.mk.injEq] at h
        obtain ⟨h1', h2'⟩ := h
        subst h2'
        have hlc : isLowerAscii c = true := by
          by_contra hc
          simp only [List.takeWhile] at htw
          rw [Bool.not_eq_true] at hc
          rw [hc] at htw
          exact List.noConfusion htw
        have hdw : (c :: cs).dropWhile isLowerAscii = cs.dropWhile isLowerAscii := by
          simp [List.dropWhile, hlc]
        rw [hdw]
        have := length_dropWhile_le isLowerAscii cs
        simp only [List.length_cons]
        omega

theorem matchAlt2_some_length {l t r : List Char} (h : matchAlt2 l = some (t, r)) :
    r.length < l.length := by
  cases l with
  | nil => simp [matchAlt2, List.takeWhile, List.dropWhile] at h
  | cons c cs =>
    simp only [matchAlt2] at h
    cases htw : (c :: cs).takeWhile isDigitAscii with
    | nil => rw [htw] at h; exact absurd h (by simp)
    | cons w ws =>
      rw [htw] at h
      rw [Option.some.injEq, Prod.mk.injEq] at h
      obtain ⟨h1', h2'⟩ := h
      subst h2'
      have hdc : isDigitAscii c = true := by
        by_contra hc
        simp only [List.takeWhile] at htw
        rw [Bool.not_eq_true] at hc
        rw [hc] at htw
        exact List.noConfusion htw
      have hdw : (c :: cs).dropWhile isDigitAscii = cs.dropWhile isDigitAscii := by
        simp [List.dropWhile, hdc]
      rw [hdw]
      have := length_dropWhile_le isDigitAscii cs
      simp only [List.length_cons]
      omega


/-! ### Character-class facts and the two tokenizers agree -/

theorem upper_not_lower {c : Char} (h : isUpperAscii c = true) : isLowerAscii c = false := by
  simp [isUpperAscii] at h
  simp [isLowerAscii]
  omega

theorem upper_not_digit {c : Char} (h : isUpperAscii c = true) : isDigitAscii c = false := by
  simp [isUpperAscii] at h
  simp [isDigitAscii]
  omega

theorem lower_not_upper {c : Char} (h : isLowerAscii c = true) : isUpperAscii c = false := by
  simp [isLowerAscii] at h
  simp [isUpperAscii]
  omega

theorem matchAlt1_upper_lower {c : Char} {cs : List Char} (hu : isUpperAscii c = true)
    (hl : headIsLower cs = true) :
    matchAlt1 (c :: cs) =
      some (c :: cs.takeWhile isLowerAscii, cs.dropWhile isLowerAscii) := by
  cases cs with
  | nil => simp [headIsLower] at hl
  | cons d ds =>
    simp only [headIsLower] at hl
    simp [matchAlt1, hu, List.takeWhile_cons, List.dropWhile_cons, hl]

theorem matchAlt1_upper_notlower {c : Char} {cs : List Char} (hu : isUpperAscii c = true)
    (hl : headIsLower cs = false) : matchAlt1 (c :: cs) = none := by
  cases cs with
  | nil => simp [matchAlt1, hu, List.takeWhile]
  | cons d ds =>
    simp only [headIsLower] at hl
    simp [matchAlt1, hu, List.takeWhile_cons, hl]

theorem matchAlt1_lower {c : Char} {cs : List Char} (hl : isLowerAscii c = true) :
    matchAlt1 (c :: cs) =
      some (c :: cs.takeWhile isLowerAscii, cs.dropWhile isLowerAscii) := by
  simp [matchAlt1, lower_not_upper hl, List.takeWhile_cons, List.dropWhile_cons, hl]

theorem matchAlt1_none_other {c : Char} {cs : List Char} (hu : isUpperAscii c = false)
    (hl : isLowerAscii c = false) : matchAlt1 (c :: cs) = none := by
  simp [matchAlt1, hu, hl, List.takeWhile_cons]

theorem matchAlt2_digit {c : Char} {cs : List Char} (hd : isDigitAscii c = true) :
    matchAlt2 (c :: cs) =
      some (c :: cs.takeWhile isDigitAscii, cs.dropWhile isDigitAscii) := by
  simp [matchAlt2, List.takeWhile_cons, List.dropWhile_cons, hd]

theorem matchAlt2_notdigit {c : Char} {cs : List Char} (hd : isDigitAscii c = false) :
    matchAlt2 (c :: cs) = none := by
  simp [matchAlt2, List.takeWhile_cons, hd]

theorem regexTokensAux_eq_specTokensAux :
    ∀ (n : Nat) (l : List Char), regexTokensAux n l = specTokensAux n l := by
  intro n
  induction n with
  | zero => intro l; rfl
  | succ m ih =>
    intro l
    cases l with
    | nil => rfl
    | cons c cs =>
      cases hu : isUpperAscii c with
      | true =>
        cases hl : headIsLower cs with
        | true =>
          simp only [regexTokensAux, specTokensAux]
          simp [matchAlt1_upper_lower hu hl, hu, hl, ih]
        | false =>
          simp only [regexTokensAux, specTokensAux]
          simp [matchAlt1_upper_notlower hu hl, matchAlt2_notdigit (upper_not_digit hu),
            hu, hl, upper_not_lower hu, upper_not_digit hu, ih]
      | false =>
        cases hlc : isLowerAscii c with
        | true =>
          simp only [regexTokensAux, specTokensAux]
          simp [matchAlt1_lower hlc, hu, hlc, ih]
        | false =>
          cases hd : isDigitAscii c with
          | true =>
            simp only [regexTokensAux, specTokensAux]
            simp [matchAlt1_none_other hu hlc, matchAlt2_digit hd, hu, hlc, hd, ih]
          | false =>
            simp only [regexTokensAux, specTokensAux]
            simp [matchAlt1_none_other hu hlc, matchAlt2_notdigit hd, hu, hlc, hd, ih]

theorem regexTokens_eq_specTokens (l : List Char) : regexTokens l = specTokens l :=
  regexTokensAux_eq_specTokensAux l.length l

theorem specTokensAux_eq_nil_iff :
    ∀ (n : Nat) (l : List Char), l.length ≤ n →
      (specTokensAux n l = [] ↔ ∀ c ∈ l, isLowerAscii c = false ∧ isDigitAscii c = false) := by
  intro n
  induction n with
  | zero =>
    intro l hl
    have : l = [] := List.eq_nil_of_length_eq_zero (Nat.le_zero.mp hl)
    subst this
    simp [specTokensAux]
  | succ m ih =>
    intro l hl
    cases l with
    | nil => simp [specTokensAux]
    | cons c cs =>
      have hcs : cs.length ≤ m := by
        simp only [List.length_cons] at hl
        omega
      simp only [specTokensAux]
      cases hu : isUpperAscii c with
      | true =>
        cases hlo : headIsLower cs with
        | true =>
          rw [if_pos (by simp [hu, hlo])]
          cases cs with
          | nil => simp [headIsLower] at hlo
          | cons d ds =>
            simp only [headIsLower] at hlo
            constructor
            · intro hfalse
              exact absurd hfalse (by simp)
            · intro hall
              have h1 := (hall d (by simp)).1
              rw [hlo] at h1
              exact absurd h1 (by simp)
        | false =>
          rw [if_neg (by simp [hlo]), if_neg (by simp [upper_not_lower hu]),
            if_neg (by simp [upper_not_digit hu])]
          rw [ih cs hcs]
          constructor
          · intro hall x hx
            rcases List.mem_cons.mp hx with h | h
            · subst h
              exact ⟨upper_not_lower hu, upper_not_digit hu⟩
            · exact hall x h
          · intro hall x hx
            exact hall x (List.mem_cons_of_mem c hx)
      | false =>
        cases hlc : isLowerAscii c with
        | true =>
          rw [if_neg (by simp), if_pos rfl]
          constructor
          · intro hfalse
            exact absurd hfalse (by simp)
          · intro hall
            have h1 := (hall c (by simp)).1
            rw [hlc] at h1
            exact absurd h1 (by simp)
        | false =>
          cases hd : isDigitAscii c with
          | true =>
            rw [if_neg (by simp), if_neg (by simp), if_pos rfl]
            constructor
            · intro hfalse
              exact absurd hfalse (by simp)
            · intro hall
              have h1 := (hall c (by simp)).2
              rw [hd] at h1
              exact absurd h1 (by simp)
          | false =>
            rw [if_neg (by simp), if_neg (by simp), if_neg (by simp)]
            rw [ih cs hcs]
            constructor
            · intro hall x hx
              rcases List.mem_cons.mp hx with h | h
              · subst h
                exact ⟨hlc, hd⟩
              · exact hall x h
            · intro hall x hx
              exact hall x (List.mem_cons_of_mem c hx)

theorem specTokens_eq_nil_iff (l : List Char) :
    specTokens l = [] ↔ ∀ c ∈ l, isLowerAscii c = false ∧ isDigitAscii c = false :=
  specTokensAux_eq_nil_iff l.length l (Nat.le_refl _)

/-! ### Association-list facts for the JS object model -/

theorem jsGet_set_self {α : Type} (m : List (String × α)) (k : String) (v : α) :
    jsGet (jsSet m k v) k = some v := by
  induction m with
  | nil => simp [jsSet, jsGet]
  | cons kv rest ih =>
    obtain ⟨k', v'⟩ := kv
    by_cases h : k' = k
    · simp [jsSet, jsGet, h]
    · simp [jsSet, jsGet, h, ih]

theorem jsGet_set_ne {α : Type} (m : List (String × α)) {k k' : String} (v : α)
    (h : k' ≠ k) : jsGet (jsSet m k' v) k = jsGet m k := by
  induction m with
  | nil => simp [jsSet, jsGet, h]
  | cons kv rest ih =>
    obtain ⟨k0, v0⟩ := kv
    by_cases h0 : k0 = k'
    · simp [jsSet, jsGet, h0, h]
    · simp only [jsSet, if_neg h0, jsGet]
      by_cases h1 : k0 = k
      · simp [h1]
      · simp [h1, ih]

theorem jsGet_eq_none_iff {α : Type} (m : List (String × α)) (k : String) :
    jsGet m k = none ↔ k ∉ keysOf m := by
  induction m with
  | nil => simp [jsGet, keysOf]
  | cons kv rest ih =>
    obtain ⟨k0, v0⟩ := kv
    by_cases h0 : k0 = k
    · simp [jsGet, keysOf, h0]
    · simp [jsGet, keysOf, h0, ih, Ne.symm h0]

theorem jsMerge_get_of_not_mem {α : Type} (m2 m1 : List (String × α)) (k : String)
    (h : k ∉ keysOf m2) : jsGet (jsMerge m1 m2) k = jsGet m1 k := by
  induction m2 generalizing m1 with
  | nil => simp [jsMerge]
  | cons kv rest ih =>
    obtain ⟨k2, v2⟩ := kv
    simp only [keysOf, List.map_cons, List.mem_cons] at h
    push_neg at h
    have : jsMerge m1 ((k2, v2) :: rest) = jsMerge (jsSet m1 k2 v2) rest := rfl
    rw [this, ih (jsSet m1 k2 v2) (by simpa [keysOf] using h.2)]
    exact jsGet_set_ne m1 v2 (fun he => h.1 he.symm)

/-! ### `reduceData`: duplicate sibling keys -/

theorem reduceAux_get_of_children_none :
    ∀ (ns : List RouteNode) (pre : List (String × RouteNode)) (k : String),
      (∀ n ∈ ns, jsGet (reduceData n.children) k = none) →
      jsGet (reduceAux pre ns) k =
        Option.or (jsGet pre k) (ns.find? (fun n => n.key == k)) := by
  intro ns
  induction ns with
  | nil => intro pre k hch; simp [reduceAux]
  | cons n rest ih =>
    intro pre k hch
    cases n with
    | mk t v key cs =>
      have hcsk : jsGet (reduceData cs) k = none := by
        have := hch (RouteNode.mk t v key cs) (by simp)
        simpa [RouteNode.children] using this
      have hrest : ∀ n ∈ rest, jsGet (reduceData n.children) k = none := by
        intro n hn
        exact hch n (List.mem_cons_of_mem _ hn)
      have hnotmem : k ∉ keysOf (reduceAux ([] : List (String × RouteNode)) cs) := by
        rw [← jsGet_eq_none_iff]
        exact hcsk
      simp only [reduceAux]
      rw [ih _ k hrest]
      rw [jsMerge_get_of_not_mem _ _ k hnotmem]
      by_cases hkey : key = k
      · subst hkey
        cases hpre : jsGet pre key with
        | some v0 =>
          rw [if_pos (by simp [hpre])]
          simp [hpre, List.find?_cons, RouteNode.key, Option.or]
        | none =>
          rw [if_neg (by simp [hpre])]
          rw [jsGet_set_self]
          simp [hpre, List.find?_cons, RouteNode.key, Option.or]
      · have hfind : ((RouteNode.mk t v key cs) :: rest).find? (fun n => n.key == k) =
            rest.find? (fun n => n.key == k) := by
          simp [List.find?_cons, RouteNode.key, hkey]
        rw [hfind]
        by_cases hpre : (jsGet pre key).isSome
        · rw [if_pos hpre]
        · rw [if_neg hpre]
          rw [jsGet_set_ne pre _ hkey]

/-! ### `depthRouterConfig`: the prefix-synthesis pass -/

theorem foldWrite_get :
    ∀ (ps : List String) (rc : List (String × RouteNode)) (key : String) (v : RouteNode)
      (S : List String),
      jsGet rc key = some v → (∀ q ∈ S, jsGet rc q = some v) →
      jsGet (ps.foldl (fun acc p =>
          match jsGet acc key with
          | some w => jsSet acc p w
          | none => acc) rc) key = some v
      ∧ ∀ p, (p ∈ S ∨ p ∈ ps) →
          jsGet (ps.foldl (fun acc p =>
            match jsGet acc key with
            | some w => jsSet acc p w
            | none => acc) rc) p = some v := by
  intro ps
  induction ps with
  | nil =>
    intro rc key v S hv hS
    refine ⟨hv, ?_⟩
    intro p hp
    rcases hp with h | h
    · exact hS p h
    · exact absurd h (List.not_mem_nil p)
  | cons q qs ih =>
    intro rc key v S hv hS
    have hstep : (qs.foldl (fun acc p =>
        match jsGet acc key with
        | some w => jsSet acc p w
        | none => acc) (match jsGet rc key with
          | some w => jsSet rc q w
          | none => rc)) =
        (qs.foldl (fun acc p =>
          match jsGet acc key with
          | some w => jsSet acc p w
          | none => acc) (jsSet rc q v)) := by
      rw [hv]
    have hv' : jsGet (jsSet rc q v) key = some v := by
      by_cases hqk : q = key
      · subst hqk
        exact jsGet_set_self rc q v
      · rw [jsGet_set_ne rc v hqk]
        exact hv
    have hS' : ∀ x ∈ q :: S, jsGet (jsSet rc q v) x = some v := by
      intro x hx
      rcases List.mem_cons.mp hx with h | h
      · subst h
        exact jsGet_set_self rc x v
      · by_cases hxq : q = x
        · subst hxq
          exact jsGet_set_self rc q v
        · rw [jsGet_set_ne rc v hxq]
          exact hS x h
    have hmain := ih (jsSet rc q v) key v (q :: S) hv' hS'
    constructor
    · simp only [List.foldl_cons, hstep]
      exact hmain.1
    · intro p hp
      simp only [List.foldl_cons, hstep]
      apply hmain.2
      rcases hp with h | h
      · exact Or.inl (List.mem_cons_of_mem q h)
      · rcases List.mem_cons.mp h with h1 | h1
        · exact Or.inl (by rw [h1]; exact List.mem_cons_self q S)
        · exact Or.inr h1

theorem foldWrite_get_other :
    ∀ (ps : List String) (rc : List (String × RouteNode)) (key x : String), x ∉ ps →
      jsGet (ps.foldl (fun acc p =>
        match jsGet acc key with
        | some w => jsSet acc p w
        | none => acc) rc) x = jsGet rc x := by
  intro ps
  induction ps with
  | nil => intro rc key x _; rfl
  | cons q qs ih =>
    intro rc key x hx
    have hxq : x ≠ q := fun h => hx (by rw [h]; exact List.mem_cons_self q qs)
    have hxqs : x ∉ qs := fun h => hx (List.mem_cons_of_mem q h)
    simp only [List.foldl_cons]
    rw [ih _ key x hxqs]
    cases hj : jsGet rc key with
    | none => rfl
    | some w => exact jsGet_set_ne rc w (fun h => hxq h.symm)

theorem processKey_get_of_not_mem (rc : List (String × RouteNode)) (key x : String)
    (hx : x ∉ prefixKeys key) : jsGet (processKey rc key) x = jsGet rc x :=
  foldWrite_get_other (prefixKeys key) rc key x hx

theorem processKey_writes (rc : List (String × RouteNode)) (key : String) (v : RouteNode)
    (hv : jsGet rc key = some v) :
    ∀ p ∈ prefixKeys key, jsGet (processKey rc key) p = some v := by
  intro p hp
  exact (foldWrite_get (prefixKeys key) rc key v [] hv (by simp)).2 p (Or.inr hp)

/-! ### Keys of the flattened map are pairwise distinct -/

theorem keysOf_jsSet {α : Type} (m : List (String × α)) (k : String) (v : α) :
    keysOf (jsSet m k v) = if k ∈ keysOf m then keysOf m else keysOf m ++ [k] := by
  induction m with
  | nil => simp [jsSet, keysOf]
  | cons kv rest ih =>
    obtain ⟨k0, v0⟩ := kv
    by_cases h0 : k0 = k
    · simp [jsSet, keysOf, h0]
    · simp only [jsSet, if_neg h0, keysOf, List.map_cons] at ih ⊢
      rw [ih]
      by_cases hm : k ∈ List.map Prod.fst rest
      · simp [hm, Ne.symm h0]
      · simp [hm, Ne.symm h0]

theorem nodup_keysOf_jsSet {α : Type} (m : List (String × α)) (k : String) (v : α)
    (h : (keysOf m).Nodup) : (keysOf (jsSet m k v)).Nodup := by
  rw [keysOf_jsSet]
  by_cases hm : k ∈ keysOf m
  · simp [hm, h]
  · simp [hm, List.nodup_append, h]

theorem nodup_keysOf_jsMerge {α : Type} :
    ∀ (m2 m1 : List (String × α)), (keysOf m1).Nodup → (keysOf (jsMerge m1 m2)).Nodup := by
  intro m2
  induction m2 with
  | nil => intro m1 h; exact h
  | cons kv rest ih =>
    intro m1 h
    exact ih (jsSet m1 kv.1 kv.2) (nodup_keysOf_jsSet m1 kv.1 kv.2 h)

theorem nodup_keysOf_reduceAux :
    ∀ (ns : List RouteNode) (pre : List (String × RouteNode)),
      (keysOf pre).Nodup → (keysOf (reduceAux pre ns)).Nodup := by
  intro ns
  induction ns with
  | nil => intro pre h; simpa [reduceAux] using h
  | cons n rest ih =>
    intro pre h
    cases n with
    | mk t v key cs =>
      simp only [reduceAux]
      apply ih
      apply nodup_keysOf_jsMerge
      by_cases hp : (jsGet pre key).isSome
      · simpa [hp] using h
      · rw [if_neg hp]
        exact nodup_keysOf_jsSet pre key _ h

theorem jsGet_entry {α : Type} :
    ∀ (m : List (String × α)), (keysOf m).Nodup → ∀ kv ∈ m, jsGet m kv.1 = some kv.2 := by
  intro m
  induction m with
  | nil => intro _ kv hkv; exact absurd hkv (List.not_mem_nil kv)
  | cons hd rest ih =>
    intro hnd kv hkv
    obtain ⟨k0, v0⟩ := hd
    simp only [keysOf, List.map_cons, List.nodup_cons] at hnd
    rcases List.mem_cons.mp hkv with h | h
    · subst h
      simp [jsGet]
    · have hne : k0 ≠ kv.1 := by
        intro he
        exact hnd.1 (by rw [he]; exact List.mem_map_of_mem Prod.fst h)
      simp only [jsGet, if_neg hne]
      exact ih hnd.2 kv h

theorem depthFold_outs :
    ∀ (entries rc : List (String × RouteNode)) (acc : List (Option RouteNode)),
      (∀ kv ∈ entries, jsGet rc kv.1 = some kv.2) →
      (keysOf entries).Pairwise (fun a b => b ∉ prefixKeys a) →
      (∀ k ∈ keysOf entries, k ∉ prefixKeys k) →
      ((keysOf entries).foldl (fun acc2 key =>
          let rc2 := processKey acc2.1 key
          (rc2, acc2.2 ++ [jsGet rc2 key])) (rc, acc)).2
        = acc ++ entries.map (fun kv => some kv.2) := by
  intro entries
  induction entries with
  | nil => intro rc acc _ _ _; simp [keysOf]
  | cons kv rest ih =>
    intro rc acc hget hpair hself
    obtain ⟨k, v⟩ := kv
    simp only [keysOf, List.map_cons, List.foldl_cons] at hpair hself ⊢
    rw [List.pairwise_cons] at hpair
    have hkself : k ∉ prefixKeys k := hself k (by simp)
    have hout : jsGet (processKey rc k) k = jsGet rc k :=
      processKey_get_of_not_mem rc k k hkself
    have hv : jsGet rc k = some v := hget (k, v) (by simp)
    have hget' : ∀ kv2 ∈ rest, jsGet (processKey rc k) kv2.1 = some kv2.2 := by
      intro kv2 hkv2
      have hnp : kv2.1 ∉ prefixKeys k :=
        hpair.1 kv2.1 (List.mem_map_of_mem Prod.fst hkv2)
      rw [processKey_get_of_not_mem rc k kv2.1 hnp]
      exact hget kv2 (List.mem_cons_of_mem _ hkv2)
    have hrec := ih (processKey rc k) (acc ++ [jsGet (processKey rc k) k]) hget' hpair.2
      (fun x hx => hself x (List.mem_cons_of_mem _ hx))
    simp only [keysOf] at hrec
    rw [hrec, hout, hv]
    simp

/-! ### `printBlocks` structure -/

theorem loopBlocks_nil (hasLink : Bool) (parent : String) :
    loopBlocks hasLink [] parent = [] := by
  rw [loopBlocks.eq_def]

theorem loopBlocks_cons_block (hasLink : Bool) (p : String) (u : Option String)
    (rest : List BlockDesc) (parent : String) :
    ∃ nm, loopBlocks hasLink (BlockDesc.block p u :: rest) parent =
      { name := nm, value := pathJoin parent p, key := pathJoin parent p } ::
        loopBlocks hasLink rest parent := by
  rw [loopBlocks.eq_def]
  exact ⟨_, rfl⟩

theorem loopBlocks_cons_dir (hasLink : Bool) (p : String) (bs rest : List BlockDesc)
    (parent : String) :
    loopBlocks hasLink (BlockDesc.dir p bs :: rest) parent =
      loopBlocks hasLink bs p ++ loopBlocks hasLink rest parent := by
  rw [loopBlocks.eq_def]

theorem loopBlocks_spec (hasLink : Bool) (blocks : List BlockDesc) (parent : String) :
    ((loopBlocks hasLink blocks parent).map BlockItem.value = nearestDirValues parent blocks)
    ∧ ((loopBlocks hasLink blocks parent).map BlockItem.key = nearestDirValues parent blocks)
    ∧ ((loopBlocks hasLink blocks parent).length = countBlocks blocks) := by
  match blocks with
  | [] => simp [loopBlocks_nil, nearestDirValues, countBlocks]
  | BlockDesc.block p u :: rest =>
    have ih := loopBlocks_spec hasLink rest parent
    obtain ⟨nm, heq⟩ := loopBlocks_cons_block hasLink p u rest parent
    rw [heq]
    refine ⟨?_, ?_, ?_⟩
    · simp only [nearestDirValues, List.map_cons]
      rw [ih.1]
    · simp only [nearestDirValues, List.map_cons]
      rw [ih.2.1]
    · simp only [countBlocks, List.length_cons]
      rw [ih.2.2]
      omega
  | BlockDesc.dir p bs :: rest =>
    have ih1 := loopBlocks_spec hasLink bs p
    have ih2 := loopBlocks_spec hasLink rest parent
    rw [loopBlocks_cons_dir]
    refine ⟨?_, ?_, ?_⟩
    · simp only [nearestDirValues, List.map_append]
      rw [ih1.1, ih2.1]
    · simp only [nearestDirValues, List.map_append]
      rw [ih1.2.1, ih2.2.1]
    · simp only [countBlocks, List.length_append]
      rw [ih1.2.2, ih2.2.2]
termination_by sizeOf blocks
decreasing_by
  all_goals simp
  all_goals omega

/-! ### `genRouterToTreeData` as map-then-filter -/

theorem genRouterToTreeData_eq_filterMap :
    ∀ routes : List Route, genRouterToTreeData routes = routes.filterMap genRouteNode := by
  intro routes
  induction routes with
  | nil => simp [genRouterToTreeData]
  | cons r rest ih =>
    cases r with
    | mk op ors =>
      cases op with
      | none => simp [genRouterToTreeData, genRouteNode, List.filterMap_cons, ih]
      | some p =>
        cases ors with
        | none =>
          by_cases hp : p = ""
          · simp [genRouterToTreeData, genRouteNode, List.filterMap_cons, hp, ih]
          · simp [genRouterToTreeData, genRouteNode, List.filterMap_cons, hp, ih]
        | some rs =>
          by_cases hp : p = ""
          · simp [genRouterToTreeData, genRouteNode, List.filterMap_cons, hp, ih]
          · simp [genRouterToTreeData, genRouteNode, List.filterMap_cons, hp, ih]

/-! ### `routeExists` is exact-key membership -/

theorem routeExists_eq_contains (path : String) (routes : List Route) :
    routeExists path routes = (keysOf (reduceData (genRouterToTreeData routes))).contains path := by
  unfold routeExists
  cases h : jsGet (reduceData (genRouterToTreeData routes)) path with
  | some v =>
    have hmem : path ∈ keysOf (reduceData (genRouterToTreeData routes)) := by
      by_contra hc
      rw [← jsGet_eq_none_iff] at hc
      rw [hc] at h
      exact Option.noConfusion h
    exact (List.elem_eq_true_of_mem hmem).symm
  | none =>
    have hnm : path ∉ keysOf (reduceData (genRouterToTreeData routes)) :=
      (jsGet_eq_none_iff _ _).mp h
    cases hc : (keysOf (reduceData (genRouterToTreeData routes))).contains path with
    | false => rfl
    | true => exact absurd (List.mem_of_elem_eq_true hc) hnm

/-! ### `gitUpdate`: ordering, fail-fast, submodule gating -/

/-- Claim C8: `gitUpdate` runs fetch, checkout of `ctx.branch`, and pull
strictly in that order (the spawned commands always form a prefix of the full
sequence), and whenever one of these steps exits non-zero the progress
reporter is marked failed, a generic wrapped error preserving the original
message is thrown, and none of the subsequent commands run. -/
theorem gitUpdate_order_fail_fast (env : GitEnv) (ctx : GitCtx) :
    (∃ n, cmdsOf (gitUpdate env ctx).1 = (gitSeq env ctx).take n)
    ∧ (∀ e, env.exec GitCmd.fetch = Except.error e →
        (gitUpdate env ctx).2 = Except.error (wrapError e)
        ∧ cmdsOf (gitUpdate env ctx).1 = [GitCmd.fetch]
        ∧ (gitUpdate env ctx).1.getLast? = some SpinEvent.fail)
    ∧ (∀ e, env.exec GitCmd.fetch = Except.ok () →
        env.exec (GitCmd.checkout ctx.branch) = Except.error e →
        (gitUpdate env ctx).2 = Except.error (wrapError e)
        ∧ cmdsOf (gitUpdate env ctx).1 = [GitCmd.fetch, GitCmd.checkout ctx.branch]
        ∧ (gitUpdate env ctx).1.getLast? = some SpinEvent.fail)
    ∧ (∀ e, env.exec GitCmd.fetch = Except.ok () →
        env.exec (GitCmd.checkout ctx.branch) = Except.ok () →
        env.exec GitCmd.pull = Except.error e →
        (gitUpdate env ctx).2 = Except.error (wrapError e)
        ∧ cmdsOf (gitUpdate env ctx).1
            = [GitCmd.fetch, GitCmd.checkout ctx.branch, GitCmd.pull]
        ∧ (gitUpdate env ctx).1.getLast? = some SpinEvent.fail) := by
  refine ⟨?_, ?_, ?_, ?_⟩
  · cases hf : env.exec GitCmd.fetch with
    | error e => exact ⟨1, by simp [gitUpdate, cmdsOf, gitSeq, hf]⟩
    | ok u =>
      cases u
      cases hc : env.exec (GitCmd.checkout ctx.branch) with
      | error e => exact ⟨2, by simp [gitUpdate, cmdsOf, gitSeq, hf, hc]⟩
      | ok u =>
        cases u
        cases hp : env.exec GitCmd.pull with
        | error e => exact ⟨3, by simp [gitUpdate, cmdsOf, gitSeq, hf, hc, hp]⟩
        | ok u =>
          cases u
          cases hs : isSubmodule env ctx.templateTmpDirPath with
          | false => exact ⟨3, by simp [gitUpdate, cmdsOf, gitSeq, hf, hc, hp, hs]⟩
          | true =>
            cases hi : env.exec GitCmd.submoduleInit with
            | error e =>
              exact ⟨4, by simp [gitUpdate, cmdsOf, gitSeq, hf, hc, hp, hs, hi]⟩
            | ok u =>
              cases u
              cases hu : env.exec GitCmd.submoduleUpdate with
              | error e =>
                exact ⟨5, by simp [gitUpdate, cmdsOf, gitSeq, hf, hc, hp, hs, hi, hu]⟩
              | ok u =>
                cases u
                exact ⟨5, by simp [gitUpdate, cmdsOf, gitSeq, hf, hc, hp, hs, hi, hu]⟩
  · intro e hf
    refine ⟨?_, ?_, ?_⟩ <;> simp [gitUpdate, cmdsOf, hf]
  · intro e hf hc
    refine ⟨?_, ?_, ?_⟩ <;> simp [gitUpdate, cmdsOf, hf, hc]
  · intro e hf hc hp
    refine ⟨?_, ?_, ?_⟩ <;> simp [gitUpdate, cmdsOf, hf, hc, hp]

/-- Claim C9: when the clone directory has no `.gitmodules` marker, both
submodule sub-steps are skipped and a successful fetch/checkout/pull makes
the whole operation succeed (final spinner event is a success and no failure
is reported); the submodule commands are spawned only when the marker file is
present. -/
theorem gitUpdate_submodule_gating (env : GitEnv) (ctx : GitCtx) :
    (isSubmodule env ctx.templateTmpDirPath = false →
      GitCmd.submoduleInit ∉ cmdsOf (gitUpdate env ctx).1
      ∧ GitCmd.submoduleUpdate ∉ cmdsOf (gitUpdate env ctx).1
      ∧ (env.exec GitCmd.fetch = Except.ok () →
          env.exec (GitCmd.checkout ctx.branch) = Except.ok () →
          env.exec GitCmd.pull = Except.ok () →
          (gitUpdate env ctx).2 = Except.ok ()
          ∧ (gitUpdate env ctx).1.getLast? = some SpinEvent.succeed
          ∧ SpinEvent.fail ∉ (gitUpdate env ctx).1))
    ∧ ((GitCmd.submoduleInit ∈ cmdsOf (gitUpdate env ctx).1
        ∨ GitCmd.submoduleUpdate ∈ cmdsOf (gitUpdate env ctx).1) →
        isSubmodule env ctx.templateTmpDirPath = true) := by
  constructor
  · intro hs
    refine ⟨?_, ?_, ?_⟩
    · cases hf : env.exec GitCmd.fetch with
      | error e => simp [gitUpdate, cmdsOf, hf]
      | ok u =>
        cases u
        cases hc : env.exec (GitCmd.checkout ctx.branch) with
        | error e => simp [gitUpdate, cmdsOf, hf, hc]
        | ok u =>
          cases u
          cases hp : env.exec GitCmd.pull with
          | error e => simp [gitUpdate, cmdsOf, hf, hc, hp]
          | ok u =>
            cases u
            simp [gitUpdate, cmdsOf, hf, hc, hp, hs]
    · cases hf : env.exec GitCmd.fetch with
      | error e => simp [gitUpdate, cmdsOf, hf]
      | ok u =>
        cases u
        cases hc : env.exec (GitCmd.checkout ctx.branch) with
        | error e => simp [gitUpdate, cmdsOf, hf, hc]
        | ok u =>
          cases u
          cases hp : env.exec GitCmd.pull with
          | error e => simp [gitUpdate, cmdsOf, hf, hc, hp]
          | ok u =>
            cases u
            simp [gitUpdate, cmdsOf, hf, hc, hp, hs]
    · intro hf hc hp
      refine ⟨?_, ?_, ?_⟩ <;> simp [gitUpdate, hf, hc, hp, hs]
  · intro hmem
    cases hs : isSubmodule env ctx.templateTmpDirPath with
    | true => rfl
    | false =>
      exfalso
      rcases hmem with h | h
      · cases hf : env.exec GitCmd.fetch with
        | error e => rw [show cmdsOf (gitUpdate env ctx).1 = [GitCmd.fetch] from by simp [gitUpdate, cmdsOf, hf]] at h; simp at h
        | ok u =>
          cases u
          cases hc : env.exec (GitCmd.checkout ctx.branch) with
          | error e => rw [show cmdsOf (gitUpdate env ctx).1 = [GitCmd.fetch, GitCmd.checkout ctx.branch] from by simp [gitUpdate, cmdsOf, hf, hc]] at h; simp at h
          | ok u =>
            cases u
            cases hp : env.exec GitCmd.pull with
            | error e => rw [show cmdsOf (gitUpdate env ctx).1 = [GitCmd.fetch, GitCmd.checkout ctx.branch, GitCmd.pull] from by simp [gitUpdate, cmdsOf, hf, hc, hp]] at h; simp at h
            | ok u =>
              cases u
              rw [show cmdsOf (gitUpdate env ctx).1 = [GitCmd.fetch, GitCmd.checkout ctx.branch, GitCmd.pull] from by simp [gitUpdate, cmdsOf, hf, hc, hp, hs]] at h
              simp at h
      · cases hf : env.exec GitCmd.fetch with
        | error e => rw [show cmdsOf (gitUpdate env ctx).1 = [GitCmd.fetch] from by simp [gitUpdate, cmdsOf, hf]] at h; simp at h
        | ok u =>
          cases u
          cases hc : env.exec (GitCmd.checkout ctx.branch) with
          | error e => rw [show cmdsOf (gitUpdate env ctx).1 = [GitCmd.fetch, GitCmd.checkout ctx.branch] from by simp [gitUpdate, cmdsOf, hf, hc]] at h; simp at h
          | ok u =>
            cases u
            cases hp : env.exec GitCmd.pull with
            | error e => rw [show cmdsOf (gitUpdate env ctx).1 = [GitCmd.fetch, GitCmd.checkout ctx.branch, GitCmd.pull] from by simp [gitUpdate, cmdsOf, hf, hc, hp]] at h; simp at h
            | ok u =>
              cases u
              rw [show cmdsOf (gitUpdate env ctx).1 = [GitCmd.fetch, GitCmd.checkout ctx.branch, GitCmd.pull] from by simp [gitUpdate, cmdsOf, hf, hc, hp, hs]] at h
              simp at h

/-! ## Claim theorems -/

/-- Claim C3, counterexample: the claim asserts that for every input string
`genBlockName` returns the lower-cased tokens joined with `/`; on an input
with no token (the empty string, or a lone capital) the join would be the
empty string, but the code throws (`match` returns `null` and `.map` fails),
modelled as `none`. -/
theorem genBlockName_no_token_counterexample :
    genBlockName "" = none ∧ genBlockName "" ≠ some "" ∧ genBlockName "A" = none := by
  refine ⟨by decide, by decide, by decide⟩

/-- Claim C3 (amended): for every input string containing at least one token
character (a lowercase ASCII letter or digit), `genBlockName` tokenizes it by
the claim's rules — capital followed by a lowercase run is one token, a lone
capital is dropped, a maximal digit run is one token — lower-cases every
token and joins with `/`; in particular
`genBlockName "AccountCenter" = "account/center"` and
`genBlockName "proList" = "pro/list"`. -/
theorem genBlockName_tokenization :
    (∀ s : String, (s.data.any (fun c => isLowerAscii c || isDigitAscii c)) = true →
      genBlockName s = some (arrayJoin "/"
        ((specTokens s.data).map (fun tok => String.mk (tok.map toLowerAscii)))))
    ∧ genBlockName "AccountCenter" = some "account/center"
    ∧ genBlockName "proList" = some "pro/list" := by
  refine ⟨?_, by decide, by decide⟩
  intro s hs
  cases hsp : specTokens s.data with
  | nil =>
    exfalso
    obtain ⟨c, hc, hcor⟩ := List.any_eq_true.mp hs
    have hboth := (specTokens_eq_nil_iff s.data).mp hsp c hc
    rcases Bool.or_eq_true_iff.mp hcor with h | h
    · rw [hboth.1] at h
      exact Bool.noConfusion h
    · rw [hboth.2] at h
      exact Bool.noConfusion h
  | cons t ts =>
    simp [genBlockName, regexTokens_eq_specTokens, hsp]

/-- Claim C3 witness: the general tokenization statement applied at the
concrete input `AccountCenter`. -/
theorem genBlockName_tokenization_witness :
    genBlockName "AccountCenter" = some (arrayJoin "/"
      ((specTokens "AccountCenter".data).map (fun tok => String.mk (tok.map toLowerAscii)))) :=
  genBlockName_tokenization.1 "AccountCenter" (by decide)

/-- Claim C10: on every input with no run matching `[A-Z]?[a-z]+` and no
digit run (equivalently: no lowercase ASCII letter and no ASCII digit),
`genBlockName` throws instead of returning a string (modelled as `none`), and
it returns a string whenever the input contains at least one such run; in
particular the empty string and a punctuation-only string throw. -/
theorem genBlockName_totality :
    (∀ s : String, (∀ c ∈ s.data, isLowerAscii c = false ∧ isDigitAscii c = false) →
      genBlockName s = none)
    ∧ (∀ s : String, (s.data.any (fun c => isLowerAscii c || isDigitAscii c)) = true →
        ∃ out, genBlockName s = some out)
    ∧ genBlockName "" = none
    ∧ genBlockName "!!!" = none := by
  refine ⟨?_, ?_, by decide, by decide⟩
  · intro s h
    have hnil : specTokens s.data = [] := (specTokens_eq_nil_iff s.data).mpr h
    simp [genBlockName, regexTokens_eq_specTokens, hnil]
  · intro s hs
    cases hsp : specTokens s.data with
    | nil =>
      exfalso
      obtain ⟨c, hc, hcor⟩ := List.any_eq_true.mp hs
      have hboth := (specTokens_eq_nil_iff s.data).mp hsp c hc
      rcases Bool.or_eq_true_iff.mp hcor with h | h
      · rw [hboth.1] at h
        exact Bool.noConfusion h
      · rw [hboth.2] at h
        exact Bool.noConfusion h
    | cons t ts =>
      exact ⟨arrayJoin "/"
          ((specTokens s.data).map (fun tok => String.mk (tok.map toLowerAscii))),
        by simp [genBlockName, regexTokens_eq_specTokens, hsp]⟩

/-- Claim C10 witness: the no-token statement applied at the concrete
punctuation-only input `###`. -/
theorem genBlockName_totality_witness : genBlockName "###" = none :=
  genBlockName_totality.1 "###" (by decide)

/-- Claim C4: `routeExists(path, routes)` is true exactly when `path` is an
exact key of the flattened (non-prefix-expanded) route mapping; in particular
`routeExists "/user" [{path:"/user"}]` is true while
`routeExists "/user/list" [{path:"/user"}]` is false, since `/user/list` is
not an exact key even though `/user` is its prefix. -/
theorem routeExists_exact_key :
    (∀ (path : String) (routes : List Route),
      routeExists path routes
        = (keysOf (reduceData (genRouterToTreeData routes))).contains path)
    ∧ routeExists "/user" [Route.mk (some "/user") none] = true
    ∧ routeExists "/user/list" [Route.mk (some "/user") none] = false := by
  refine ⟨routeExists_eq_contains, ?_, ?_⟩
  · simp [routeExists, reduceData, reduceAux, genRouterToTreeData, jsGet, jsSet, jsMerge]
  · simp [routeExists, reduceData, reduceAux, genRouterToTreeData, jsGet, jsSet, jsMerge]

/-- Claim C5, counterexample: with two siblings of key `k` where the first
sibling has a child that also has key `k`, the object spread
`{...pre, ...childrenKeys}` lets the child override the first sibling, so the
mapping does not bind `k` to the first-encountered sibling (title `t1`) but
to its child (title `tc`). -/
theorem reduceData_spread_override_counterexample :
    (jsGet (reduceData [RouteNode.mk "t1" "v1" "k" [RouteNode.mk "tc" "vc" "k" []],
        RouteNode.mk "t2" "v2" "k" []]) "k").map RouteNode.title = some "tc"
    ∧ ((some "tc" : Option String) ≠ some "t1") := by
  constructor
  · simp [reduceData, reduceAux, jsGet, jsSet, jsMerge, RouteNode.title]
  · decide

/-- Claim C5 (amended): provided the shared key does not also occur inside
any sibling's flattened children, `reduceData` binds a duplicated sibling key
to the first-encountered sibling (the node found first in the list), not to a
later one. -/
theorem reduceData_first_sibling_wins (ns : List RouteNode) (k : String) (n1 : RouteNode)
    (hch : ∀ n ∈ ns, jsGet (reduceData n.children) k = none)
    (hfirst : ns.find? (fun n => n.key == k) = some n1) :
    jsGet (reduceData ns) k = some n1 := by
  have h := reduceAux_get_of_children_none ns [] k hch
  rw [reduceData]
  rw [h]
  simp only [jsGet, Option.or]
  exact hfirst

/-- Claim C5 witness: two sibling nodes with the same key `k` and childless
subtrees; the flattened map binds `k` to the first sibling. -/
theorem reduceData_first_sibling_wins_witness :
    jsGet (reduceData [RouteNode.mk "t1" "v1" "k" [], RouteNode.mk "t2" "v2" "k" []]) "k"
      = some (RouteNode.mk "t1" "v1" "k" []) := by
  apply reduceData_first_sibling_wins
  · intro n hn
    rcases List.mem_cons.mp hn with h | h
    · subst h
      simp [RouteNode.children, reduceData, reduceAux, jsGet]
    · rcases List.mem_cons.mp h with h2 | h2
      · subst h2
        simp [RouteNode.children, reduceData, reduceAux, jsGet]
      · exact absurd h2 (List.not_mem_nil n)
  · simp [List.find?, RouteNode.key]

/-- Claim C7, counterexample: an entry carrying `path: ""` is path-bearing
but falsy, so it is dropped together with its nested routes — the claim's
"every path-bearing entry yields exactly one RouteNode" fails on it. -/
theorem genRouterToTreeData_empty_path_counterexample :
    genRouterToTreeData [Route.mk (some "") (some [Route.mk (some "/a") none])] = []
    ∧ (genRouterToTreeData [Route.mk (some "") (some [Route.mk (some "/a") none])]).length
        = 0 := by
  constructor
  · simp [genRouterToTreeData]
  · simp [genRouterToTreeData]

/-- Claim C7 (amended): `genRouterToTreeData` is the per-entry map followed
by the truthiness filter; an entry whose `path` is absent or the empty string
is omitted entirely (its nested routes are dropped with it), and every entry
with a nonempty path yields exactly one RouteNode with
`title = value = key = path` and children computed recursively from its
nested routes (empty when absent). -/
theorem genRouterToTreeData_shape :
    (∀ routes : List Route, genRouterToTreeData routes = routes.filterMap genRouteNode)
    ∧ (∀ rs : Option (List Route), genRouteNode (Route.mk none rs) = none)
    ∧ (∀ rs : Option (List Route), genRouteNode (Route.mk (some "") rs) = none)
    ∧ (∀ (p : String) (rs : Option (List Route)), p ≠ "" →
        genRouteNode (Route.mk (some p) rs)
          = some (RouteNode.mk p p p (genRouterToTreeData (rs.getD [])))) := by
  refine ⟨genRouterToTreeData_eq_filterMap, ?_, ?_, ?_⟩
  · intro rs; rfl
  · intro rs; simp [genRouteNode]
  · intro p rs hp
    simp [genRouteNode, hp]

/-- Claim C7 witness: the nonempty-path statement applied at the concrete
route `{path: "/u"}` with no nested routes. -/
theorem genRouterToTreeData_shape_witness :
    genRouteNode (Route.mk (some "/u") none)
      = some (RouteNode.mk "/u" "/u" "/u"
          (genRouterToTreeData ((none : Option (List Route)).getD []))) :=
  genRouterToTreeData_shape.2.2.2 "/u" none (by decide)

/-- Claim C1, counterexample: with nested directories the source recurses
with `loopBlocks(block.blocks, block.path)` — the accumulated parent path is
replaced by the directory's own path, not extended — so the emitted value is
`b/c`, not the all-ancestors join `a/b/c` the claim requires.  The paths are
plain segments, so the `pathJoin` model coincides with `path.join`. -/
theorem printBlocks_nested_dir_counterexample :
    (printBlocks [BlockDesc.dir "a" [BlockDesc.dir "b" [BlockDesc.block "c" none]]]
        false).map BlockItem.value = ["b/c"]
    ∧ allAncestorValues ""
        [BlockDesc.dir "a" [BlockDesc.dir "b" [BlockDesc.block "c" none]]] = ["a/b/c"]
    ∧ (["b/c"] : List String) ≠ ["a/b/c"]
    ∧ plainPaths [BlockDesc.dir "a" [BlockDesc.dir "b" [BlockDesc.block "c" none]]]
        = true := by
  refine ⟨?_, ?_, by decide, ?_⟩
  · simp [printBlocks, loopBlocks.eq_def, pathJoin]
  · simp [allAncestorValues.eq_def, pathJoin]
  · simp only [plainPaths.eq_def]
    decide

/-- Claim C1 (amended): for every descriptor tree of plain path segments and
every `hasLink`, `printBlocks` emits one record per `block`-typed descriptor
(output length is the number of blocks), and each record's `value` and `key`
equal the path of its nearest enclosing `dir` joined with the block's own
path (the accumulated path is reset at each directory, not extended through
all ancestors). -/
theorem printBlocks_nearest_dir (blocks : List BlockDesc) (hasLink : Bool)
    (hplain : plainPaths blocks = true) :
    (printBlocks blocks hasLink).map BlockItem.value = nearestDirValues "" blocks
    ∧ (printBlocks blocks hasLink).map BlockItem.key = nearestDirValues "" blocks
    ∧ (printBlocks blocks hasLink).length = countBlocks blocks := by
  have h := loopBlocks_spec hasLink blocks ""
  exact ⟨h.1, h.2.1, h.2.2⟩

/-- Claim C1 witness: the amended statement applied at a concrete two-entry
tree with one directory. -/
theorem printBlocks_nearest_dir_witness :
    plainPaths [BlockDesc.dir "a" [BlockDesc.block "c" (some "u")],
        BlockDesc.block "d" none] = true
    ∧ (printBlocks [BlockDesc.dir "a" [BlockDesc.block "c" (some "u")],
        BlockDesc.block "d" none] true).map BlockItem.value
      = nearestDirValues "" [BlockDesc.dir "a" [BlockDesc.block "c" (some "u")],
          BlockDesc.block "d" none]
    ∧ (printBlocks [BlockDesc.dir "a" [BlockDesc.block "c" (some "u")],
        BlockDesc.block "d" none] true).length
      = countBlocks [BlockDesc.dir "a" [BlockDesc.block "c" (some "u")],
          BlockDesc.block "d" none] := by
  have hp : plainPaths [BlockDesc.dir "a" [BlockDesc.block "c" (some "u")],
      BlockDesc.block "d" none] = true := by
    simp only [plainPaths.eq_def]
    decide
  have h := printBlocks_nearest_dir _ true hp
  exact ⟨hp, h.1, h.2.2⟩

/-- Claim C2, counterexample: the prefix-synthesis pass writes
`routerConfig['/' + routerKey] = routerConfig[key]` without any presence
check.  Starting from a map in which the ancestor key `/a` is already present
(bound to its own node, as the flatten step produces for routes `/a` and
`/a/b`), processing key `/a/b` overwrites `/a` with the `/a/b` node — so an
already-present ancestor key is written, falsifying first-seen-wins. -/
theorem depthRouterConfig_ancestor_overwrite_counterexample :
    (jsGet [("/a", RouteNode.mk "/a" "/a" "/a" []),
        ("/a/b", RouteNode.mk "/a/b" "/a/b" "/a/b" [])] "/a").map RouteNode.key
      = some "/a"
    ∧ (jsGet (processKey [("/a", RouteNode.mk "/a" "/a" "/a" []),
        ("/a/b", RouteNode.mk "/a/b" "/a/b" "/a/b" [])] "/a/b") "/a").map RouteNode.key
      = some "/a/b"
    ∧ ((some "/a/b" : Option String) ≠ some "/a") := by
  refine ⟨by decide, by decide, by decide⟩

/-- Claim C2 (amended): in the prefix-synthesis pass the ancestor write is
unconditional — whether or not the ancestor key is already present, after a
key is processed every one of its ancestor prefix keys is bound to that key's
current node (so per ancestor key, the last writer wins, not the first). -/
theorem depthRouterConfig_prefix_write_unconditional (rc : List (String × RouteNode))
    (key : String) (v : RouteNode) (hv : jsGet rc key = some v) :
    ∀ p ∈ prefixKeys key, jsGet (processKey rc key) p = some v :=
  processKey_writes rc key v hv

/-- Claim C2 witness: the unconditional-write statement applied at a concrete
one-entry map and key `/a/b`, whose ancestor key `/a` receives the node. -/
theorem depthRouterConfig_prefix_write_unconditional_witness :
    jsGet (processKey [("/a/b", RouteNode.mk "/a/b" "/a/b" "/a/b" [])] "/a/b") "/a"
      = some (RouteNode.mk "/a/b" "/a/b" "/a/b" []) :=
  depthRouterConfig_prefix_write_unconditional _ "/a/b" _ (by simp [jsGet]) "/a"
    (by decide)

/-- `depthRouterConfig` written out with its intermediate map pass expanded;
holds by unfolding definitions. -/
theorem depthRouterConfig_eq (routes : List Route) :
    depthRouterConfig routes
      = ((((keysOf (reduceData (genRouterToTreeData routes))).foldl
          (fun acc key => (processKey acc.1 key, acc.2 ++ [jsGet (processKey acc.1 key) key]))
          (reduceData (genRouterToTreeData routes), [])).2.filterMap id).filter
            (fun n => !n.children.isEmpty)) := rfl

/-- Claim C6, counterexample: with routes `/a/b` (flattened first) and `/a`
(with one child), the key `/a` is a strict prefix of the earlier-processed
key `/a/b`, so by the time `/a` is read the unconditional prefix write has
replaced its value with the childless `/a/b` node; the result is empty even
though the flattened map holds a `/a` node with a non-empty `children`
sequence — the output is not "exactly those flattened-map values whose
children sequence is non-empty". -/
theorem depthRouterConfig_clobbered_read_counterexample :
    (depthRouterConfig [Route.mk (some "/a/b") none,
        Route.mk (some "/a") (some [Route.mk (some "/x") none])]).length = 0
    ∧ (((reduceData (genRouterToTreeData [Route.mk (some "/a/b") none,
        Route.mk (some "/a") (some [Route.mk (some "/x") none])])).map Prod.snd).filter
          (fun n => !n.children.isEmpty)).map RouteNode.key = ["/a"] := by
  have h1 : reduceData (genRouterToTreeData [Route.mk (some "/a/b") none,
        Route.mk (some "/a") (some [Route.mk (some "/x") none])])
      = [("/a/b", RouteNode.mk "/a/b" "/a/b" "/a/b" []),
         ("/a", RouteNode.mk "/a" "/a" "/a" [RouteNode.mk "/x" "/x" "/x" []]),
         ("/x", RouteNode.mk "/x" "/x" "/x" [])] := by
    simp [genRouterToTreeData, reduceData, reduceAux, jsGet, jsSet, jsMerge]
  constructor
  · rw [depthRouterConfig_eq, h1]
    decide
  · rw [h1]
    decide

/-- Claim C6 (amended): provided no flattened key is itself a synthesized
ancestor prefix of an earlier-or-equally-processed key (so no read is
clobbered by a previous unconditional prefix write), `depthRouterConfig`
returns exactly the flattened-map values with a non-empty `children`
sequence, in the insertion order of the flatten step. -/
theorem depthRouterConfig_children_filter (routes : List Route)
    (hpair : (keysOf (reduceData (genRouterToTreeData routes))).Pairwise
      (fun a b => b ∉ prefixKeys a))
    (hself : ∀ k ∈ keysOf (reduceData (genRouterToTreeData routes)), k ∉ prefixKeys k) :
    depthRouterConfig routes
      = ((reduceData (genRouterToTreeData routes)).map Prod.snd).filter
          (fun n => !n.children.isEmpty) := by
  have hnd : (keysOf (reduceData (genRouterToTreeData routes))).Nodup :=
    nodup_keysOf_reduceAux _ [] (by simp [keysOf])
  have hget := jsGet_entry (reduceData (genRouterToTreeData routes)) hnd
  have houts := depthFold_outs (reduceData (genRouterToTreeData routes))
    (reduceData (genRouterToTreeData routes)) [] hget hpair hself
  rw [depthRouterConfig_eq]
  rw [houts]
  have hfm : ∀ (l : List (String × RouteNode)),
      (l.map (fun kv => some kv.2)).filterMap id = l.map Prod.snd := by
    intro l
    induction l with
    | nil => simp
    | cons kv rest ih => simp [ih]
  rw [List.nil_append, hfm]

/-- Claim C6 witness: the amended statement applied at the claim's own
example `[{path: "/user", routes: [{path: "/user/list"}]}]`; the result is
the `/user` node (which has children) and excludes `/user/list`. -/
theorem depthRouterConfig_children_filter_witness :
    depthRouterConfig [Route.mk (some "/user") (some [Route.mk (some "/user/list") none])]
      = ((reduceData (genRouterToTreeData
          [Route.mk (some "/user") (some [Route.mk (some "/user/list") none])])).map
            Prod.snd).filter (fun n => !n.children.isEmpty)
    ∧ (depthRouterConfig
        [Route.mk (some "/user") (some [Route.mk (some "/user/list") none])]).map
          RouteNode.key = ["/user"] := by
  have h1 : reduceData (genRouterToTreeData
        [Route.mk (some "/user") (some [Route.mk (some "/user/list") none])])
      = [("/user", RouteNode.mk "/user" "/user" "/user"
            [RouteNode.mk "/user/list" "/user/list" "/user/list" []]),
         ("/user/list", RouteNode.mk "/user/list" "/user/list" "/user/list" [])] := by
    simp [genRouterToTreeData, reduceData, reduceAux, jsGet, jsSet, jsMerge]
  have hmain := depthRouterConfig_children_filter
    [Route.mk (some "/user") (some [Route.mk (some "/user/list") none])]
    (by rw [h1]; decide) (by rw [h1]; decide)
  refine ⟨hmain, ?_⟩
  rw [hmain, h1]
  decide

/-- Claim C8 witness: the fail-fast statement applied at a concrete
environment whose checkout step fails with message `boom`: fetch runs, the
checkout failure marks the spinner failed, the wrapped error is thrown, and
pull never runs. -/
theorem gitUpdate_order_fail_fast_witness :
    (gitUpdate envCheckoutFails ctxFixture).2 = Except.error (wrapError "boom")
    ∧ cmdsOf (gitUpdate envCheckoutFails ctxFixture).1
        = [GitCmd.fetch, GitCmd.checkout "master"]
    ∧ (gitUpdate envCheckoutFails ctxFixture).1.getLast? = some SpinEvent.fail := by
  have h := (gitUpdate_order_fail_fast envCheckoutFails ctxFixture).2.2.1 "boom" rfl rfl
  exact ⟨h.1, h.2.1, h.2.2⟩

/-- Claim C9 witness: the gating statement applied at a concrete all-success
environment with no `.gitmodules` marker: both submodule commands are
skipped and the run reports overall success. -/
theorem gitUpdate_submodule_gating_witness :
    GitCmd.submoduleInit ∉ cmdsOf (gitUpdate envAllOk ctxFixture).1
    ∧ GitCmd.submoduleUpdate ∉ cmdsOf (gitUpdate envAllOk ctxFixture).1
    ∧ (gitUpdate envAllOk ctxFixture).2 = Except.ok ()
    ∧ (gitUpdate envAllOk ctxFixture).1.getLast? = some SpinEvent.succeed
    ∧ SpinEvent.fail ∉ (gitUpdate envAllOk ctxFixture).1 := by
  have h := (gitUpdate_submodule_gating envAllOk ctxFixture).1 rfl
  have h3 := h.2.2 rfl rfl rfl
  exact ⟨h.1, h.2.1, h3.1, h3.2.1, h3.2.2⟩
